import Mathlib

/-!
Verification of the tic-tac-toe rules engine (a Rust crate with a packed
bitboard representation) against its natural-language specification.

The whole engine is shallowly embedded here.  The 32-bit board word of the
Rust type `Bitboard(u32)` is modelled as a `Nat`; every arithmetic or bitwise
operation performed by the source stays inside 32 bits for all values the
source can produce (cell indices are below 9, so all shift amounts are at
most 26), hence plain `Nat` operations agree with the `u32` ones.  Rust
`panic!`/`assert!` aborts are modelled by `Option`, and the fallible parser
by `Except`.  The crate contains the same `Bitboard` implementation twice
(once privately in `lib.rs`, once in `bitboard.rs`); the two are textually
identical, so one embedding covers both.
-/

/-- Cell models the Rust enum `Cell`: the state of one board cell. -/
inductive Cell where
  | Empty
  | PlayerOne
  | PlayerTwo
deriving DecidableEq

/-- TicTacToeState models the Rust enum `TicTacToeState`. -/
inductive TicTacToeState where
  | VictoryPlayerOne
  | VictoryPlayerTwo
  | Draw
  | TurnPlayerOne
  | TurnPlayerTwo
deriving DecidableEq

/-- CellIndex models the Rust struct `CellIndex(u8)`: a board position.
The source maintains the invariant that the value is in `[0,9)`; theorems
carry that bound as a hypothesis where it matters. -/
abbrev CellIndex := Nat

namespace CellIndex

/-- row models `CellIndex::row`. -/
def row (i : CellIndex) : Nat := i / 3

/-- column models `CellIndex::column`. -/
def column (i : CellIndex) : Nat := i % 3

/-- from_str models the `FromStr` impl for `CellIndex`.  The Rust code
inspects only the first byte of the input (`source.as_bytes().first()`).
For inputs whose first character is ASCII the first byte equals the first
character's code point, and a non-ASCII first character has first byte at
least 0xC2, which is outside the accepted range b'0'..=b'8' just as its
code point is; so matching on the first `Char` is byte-for-byte faithful. -/
def from_str (source : String) : Except String CellIndex :=
  match source.data with
  | v :: _ =>
    if ('0' : Char) ≤ v ∧ v ≤ ('8' : Char) then Except.ok (v.toNat - ('0' : Char).toNat)
    else Except.error "Only digits from 0 to 8 count as valid moves."
  | [] => Except.error "Only digits from 0 to 8 count as valid moves."

end CellIndex

/-- Bitboard models the Rust struct `Bitboard(u32)`; the packed word is a
`Nat` that the source keeps below `2 ^ 32`. -/
abbrev Bitboard := Nat

namespace Bitboard

/-- u32Max is the all-ones 32-bit word; Rust `!x` on a `u32` is `u32Max ^^^ x`. -/
def u32Max : Nat := 2 ^ 32 - 1

/-- new models `Bitboard::new`: the empty board. -/
def new : Bitboard := 0

/-- mark_cell models `Bitboard::mark_cell`: unchecked write of one cell. -/
def mark_cell (b : Bitboard) (index : CellIndex) (new_state : Cell) : Bitboard :=
  let bitmask_cell := 1 <<< (CellIndex.row index * (3 + 1) + CellIndex.column index)
  match new_state with
  | Cell.PlayerOne => b ||| bitmask_cell
  | Cell.PlayerTwo => b ||| (bitmask_cell <<< 16)
  | Cell.Empty => b &&& (u32Max ^^^ (bitmask_cell ||| (bitmask_cell <<< 16)))

/-- field models `Bitboard::field`: read one cell. -/
def field (b : Bitboard) (index : CellIndex) : Cell :=
  let bitmask := 1 <<< (CellIndex.row index * (3 + 1) + CellIndex.column index)
  if bitmask &&& b ≠ 0 then Cell.PlayerOne
  else if (bitmask <<< 16) &&& b ≠ 0 then Cell.PlayerTwo
  else Cell.Empty

/-- victory models `Bitboard::victory`: the four shift-and-AND line tests
(horizontal, vertical and the two diagonals) on the combined word. -/
def victory (b : Bitboard) : Bool :=
  let col := 1
  let row := 3 + 1
  ((b &&& b >>> col &&& b >>> (2 * col)) |||
   (b &&& b >>> row &&& b >>> (2 * row)) |||
   (b &&& b >>> (col + row) &&& b >>> (2 * (col + row))) |||
   (b &&& b >>> (row - col) &&& b >>> (2 * (row - col)))) != 0

/-- popcountAux is a fuel-based population count; the fuel only has to be at
least the number being counted for the recursion to bottom out. -/
def popcountAux : Nat → Nat → Nat
  | 0, _ => 0
  | f + 1, n => if n = 0 then 0 else n % 2 + popcountAux f (n / 2)

/-- popcount counts the set bits of a natural number (models `u32::count_ones`). -/
def popcount (n : Nat) : Nat := popcountAux n n

/-- stones models `Bitboard::stones`. -/
def stones (b : Bitboard) : Nat := popcount b

end Bitboard

/-- TicTacToe models the Rust struct `TicTacToe(Bitboard)`. -/
abbrev TicTacToe := Bitboard

namespace TicTacToe

/-- new models `TicTacToe::new`. -/
def new : TicTacToe := Bitboard.new

/-- cellDisplay models the `Display` impl for `Cell`. -/
def cellDisplay : Cell → String
  | Cell.Empty => " "
  | Cell.PlayerOne => "X"
  | Cell.PlayerTwo => "O"

/-- print_to models `TicTacToe::print_to`, returning the bytes written to the
sink as a `String`. -/
def print_to (g : TicTacToe) : String :=
  let f := fun i => cellDisplay (Bitboard.field g i)
  "-------\n|" ++ f 0 ++ "|" ++ f 1 ++ "|" ++ f 2 ++ "|\n|-----|\n|" ++
    f 3 ++ "|" ++ f 4 ++ "|" ++ f 5 ++ "|\n|-----|\n|" ++
    f 6 ++ "|" ++ f 7 ++ "|" ++ f 8 ++ "|\n-------"

/-- legal_moves models `TicTacToe::legal_moves`; the Rust lazy iterator over
`(0..9).filter(...)` is materialized as the list it yields. -/
def legal_moves (g : TicTacToe) : List CellIndex :=
  (List.range 9).filter (fun i => decide (Bitboard.field g i = Cell.Empty))

/-- state models `TicTacToe::state`. -/
def state (g : TicTacToe) : TicTacToeState :=
  let stones := Bitboard.stones g
  let player := stones % 2
  match Bitboard.victory g, player with
  | true, 0 => TicTacToeState.VictoryPlayerOne
  | true, 1 => TicTacToeState.VictoryPlayerTwo
  | false, 0 => TicTacToeState.TurnPlayerOne
  | _, _ => if stones = 9 then TicTacToeState.Draw else TicTacToeState.TurnPlayerTwo

/-- play_move models `TicTacToe::play_move`; the Rust `assert!` failure on an
occupied cell and the `panic!` on a finished game both become `none`. -/
def play_move (g : TicTacToe) (mov : CellIndex) : Option TicTacToe :=
  if Bitboard.field g mov = Cell.Empty then
    match state g with
    | TicTacToeState.TurnPlayerOne => some (Bitboard.mark_cell g mov Cell.PlayerOne)
    | TicTacToeState.TurnPlayerTwo => some (Bitboard.mark_cell g mov Cell.PlayerTwo)
    | _ => none
  else none

end TicTacToe

/-- playMoves applies a list of moves in order through `play_move`,
propagating failure. -/
def playMoves (ms : List CellIndex) (g : TicTacToe) : Option TicTacToe :=
  match ms with
  | [] => some g
  | m :: rest =>
    match TicTacToe.play_move g m with
    | some g2 => playMoves rest g2
    | none => none

/-- applyMarks folds a sequence of raw `mark_cell` writes over a board. -/
def applyMarks (ms : List (CellIndex × Cell)) (b : Bitboard) : Bitboard :=
  ms.foldl (fun w p => Bitboard.mark_cell w p.1 p.2) b

/-- Reachable g holds when g arises from the fresh game by a sequence of
successful `play_move` calls with in-range cell indices. -/
inductive Reachable : TicTacToe → Prop where
  | base : Reachable TicTacToe.new
  | step {g g2 : TicTacToe} {c : CellIndex} (hr : Reachable g) (hc : c < 9)
      (hp : TicTacToe.play_move g c = some g2) : Reachable g2

/-- lines lists the eight winning lines of the 3 by 3 grid in cell indices
(three rows, three columns, two diagonals); this is the spec-side notion of
a complete line, used to state the victory refinement. -/
def lines : List (List Nat) :=
  [[0, 1, 2], [3, 4, 5], [6, 7, 8], [0, 3, 6], [1, 4, 7], [2, 5, 8], [0, 4, 8], [2, 4, 6]]

/-- cellBit gives the bit position of a cell inside one player's half of the
packed word: row times four plus column. -/
def cellBit (c : Nat) : Nat := CellIndex.row c * (3 + 1) + CellIndex.column c

/-- playerOneHasLine is the spec-side test that player one's occupancy bitmap
(low half of the word) contains a complete line. -/
def playerOneHasLine (b : Bitboard) : Bool :=
  lines.any (fun l => l.all (fun c => b.testBit (cellBit c)))

/-- playerTwoHasLine is the spec-side test that player two's occupancy bitmap
(the half shifted by 16) contains a complete line. -/
def playerTwoHasLine (b : Bitboard) : Bool :=
  lines.any (fun l => l.all (fun c => b.testBit (cellBit c + 16)))

/-- validMask has ones exactly at the 18 bit positions that encode a cell:
bits 0,1,2,4,5,6,8,9,10 for player one and the same pattern shifted by 16. -/
def validMask : Nat := 0x07770777

/-- drawBoard is the full drawn position reached by the legal move sequence
0,2,1,3,5,4,6,7,8 (players alternating, player one first). -/
def drawBoard : TicTacToe :=
  (playMoves [0, 2, 1, 3, 5, 4, 6, 7, 8] TicTacToe.new).getD TicTacToe.new

/-- victoryBoard is the position reached by the spec scenario moves
4,6,2,8,5,7 from a new game; its bottom row belongs to player two. -/
def victoryBoard : TicTacToe :=
  (playMoves [4, 6, 2, 8, 5, 7] TicTacToe.new).getD TicTacToe.new

/-- oneMoveBoard is the position after the single opening move at cell 4. -/
def oneMoveBoard : TicTacToe :=
  (TicTacToe.play_move TicTacToe.new 4).getD TicTacToe.new

/-- diagBoard marks cells 0, 4 and 8 for player one on an empty board. -/
def diagBoard : Bitboard :=
  Bitboard.mark_cell (Bitboard.mark_cell (Bitboard.mark_cell Bitboard.new 0 Cell.PlayerOne)
    4 Cell.PlayerOne) 8 Cell.PlayerOne

/-- ValidWord w states that w has set bits only at the 18 valid cell positions. -/
def ValidWord (w : Bitboard) : Prop :=
  ∀ j, w.testBit j = true → validMask.testBit j = true

/-- vWord names the combined word the source's victory test compares with
zero, with the constant shift amounts folded. -/
def vWord (b : Bitboard) : Nat :=
  (b &&& b >>> 1 &&& b >>> 2) ||| (b &&& b >>> 4 &&& b >>> 8) |||
    (b &&& b >>> 5 &&& b >>> 10) ||| (b &&& b >>> 3 &&& b >>> 6)

/-- testBit_one_shiftLeft computes the bits of a one-bit mask. -/
theorem testBit_one_shiftLeft (p j : Nat) : (1 <<< p).testBit j = decide (p = j) := by
  rw [Nat.one_shiftLeft]; exact Nat.testBit_two_pow

/-- land_one_shiftLeft_ne_zero relates the nonzero test the source performs on
a masked word to the corresponding bit of the word. -/
theorem land_one_shiftLeft_ne_zero (b p : Nat) : 1 <<< p &&& b ≠ 0 ↔ b.testBit p = true := by
  constructor
  · intro h
    obtain ⟨i, hi⟩ := Nat.ne_zero_implies_bit_true h
    rw [Nat.testBit_and, Bool.and_eq_true, testBit_one_shiftLeft] at hi
    obtain ⟨hpi, hbi⟩ := hi
    exact (of_decide_eq_true hpi) ▸ hbi
  · intro h h0
    have hbit : (1 <<< p &&& b).testBit p = true := by
      rw [Nat.testBit_and, testBit_one_shiftLeft, h]
      simp
    rw [h0] at hbit
    simp at hbit

/-- field_spec characterizes `Bitboard::field` by the two bits of the cell. -/
theorem field_spec (b : Bitboard) (i : CellIndex) :
    Bitboard.field b i =
      (if b.testBit (cellBit i) = true then Cell.PlayerOne
       else if b.testBit (cellBit i + 16) = true then Cell.PlayerTwo
       else Cell.Empty) := by
  simp only [Bitboard.field, cellBit]
  rw [← Nat.shiftLeft_add]
  simp only [land_one_shiftLeft_ne_zero]

/-- field_eq_empty_iff restates an empty read as two clear bits. -/
theorem field_eq_empty_iff (b : Bitboard) (i : CellIndex) :
    Bitboard.field b i = Cell.Empty ↔
      b.testBit (cellBit i) = false ∧ b.testBit (cellBit i + 16) = false := by
  rw [field_spec]
  split_ifs with h1 h2 <;> simp_all

/-- field_eq_playerOne_iff restates a player-one read as the low bit. -/
theorem field_eq_playerOne_iff (b : Bitboard) (i : CellIndex) :
    Bitboard.field b i = Cell.PlayerOne ↔ b.testBit (cellBit i) = true := by
  rw [field_spec]
  split_ifs with h1 h2 <;> simp_all

/-- mark_cell_PlayerOne rewrites a player-one write as a bit set. -/
theorem mark_cell_PlayerOne (b : Bitboard) (i : CellIndex) :
    Bitboard.mark_cell b i Cell.PlayerOne = b ||| 2 ^ cellBit i := by
  simp [Bitboard.mark_cell, cellBit, Nat.one_shiftLeft]

/-- mark_cell_PlayerTwo rewrites a player-two write as a bit set in the high half. -/
theorem mark_cell_PlayerTwo (b : Bitboard) (i : CellIndex) :
    Bitboard.mark_cell b i Cell.PlayerTwo = b ||| 2 ^ (cellBit i + 16) := by
  simp only [Bitboard.mark_cell, cellBit]
  rw [← Nat.shiftLeft_add, Nat.one_shiftLeft]

/-- mark_cell_Empty rewrites a clear as a conjunction with the complement mask. -/
theorem mark_cell_Empty (b : Bitboard) (i : CellIndex) :
    Bitboard.mark_cell b i Cell.Empty =
      b &&& (Bitboard.u32Max ^^^ (2 ^ cellBit i ||| 2 ^ (cellBit i + 16))) := by
  simp only [Bitboard.mark_cell, cellBit]
  rw [← Nat.shiftLeft_add, Nat.one_shiftLeft, Nat.one_shiftLeft]

/-- testBit_mark_PlayerOne computes the bits of a board after a player-one write. -/
theorem testBit_mark_PlayerOne (b : Bitboard) (i : CellIndex) (j : Nat) :
    (Bitboard.mark_cell b i Cell.PlayerOne).testBit j =
      (b.testBit j || decide (cellBit i = j)) := by
  rw [mark_cell_PlayerOne, Nat.testBit_or, Nat.testBit_two_pow]

/-- testBit_mark_PlayerTwo computes the bits of a board after a player-two write. -/
theorem testBit_mark_PlayerTwo (b : Bitboard) (i : CellIndex) (j : Nat) :
    (Bitboard.mark_cell b i Cell.PlayerTwo).testBit j =
      (b.testBit j || decide (cellBit i + 16 = j)) := by
  rw [mark_cell_PlayerTwo, Nat.testBit_or, Nat.testBit_two_pow]

/-- testBit_mark_Empty computes the bits of a board after a clear, for bit
positions inside the 32-bit word. -/
theorem testBit_mark_Empty (b : Bitboard) (i : CellIndex) (j : Nat) (hj : j < 32) :
    (Bitboard.mark_cell b i Cell.Empty).testBit j =
      (b.testBit j && !(decide (cellBit i = j) || decide (cellBit i + 16 = j))) := by
  rw [mark_cell_Empty, Nat.testBit_and, Nat.testBit_xor, Nat.testBit_or,
    Nat.testBit_two_pow, Nat.testBit_two_pow]
  have hmax : Bitboard.u32Max.testBit j = true := by
    unfold Bitboard.u32Max
    rw [Nat.testBit_two_pow_sub_one]
    exact decide_eq_true hj
  rw [hmax, Bool.true_xor]

/-- cellBit_lt bounds the bit position of a valid cell. -/
theorem cellBit_lt : ∀ i < 9, cellBit i < 11 := by decide

/-- cellBit_inj states that distinct valid cells use distinct bits. -/
theorem cellBit_inj : ∀ i < 9, ∀ j < 9, cellBit i = cellBit j → i = j := by decide

/-- validMask_cellBit states that valid player-one cell bits lie in the mask. -/
theorem validMask_cellBit : ∀ i < 9, validMask.testBit (cellBit i) = true := by decide

/-- validMask_cellBit16 states that valid player-two cell bits lie in the mask. -/
theorem validMask_cellBit16 : ∀ i < 9, validMask.testBit (cellBit i + 16) = true := by decide

/-- field_mark_self_PlayerOne is the read-after-write law for a player-one write. -/
theorem field_mark_self_PlayerOne (b : Bitboard) (i : CellIndex) :
    Bitboard.field (Bitboard.mark_cell b i Cell.PlayerOne) i = Cell.PlayerOne := by
  rw [field_spec, testBit_mark_PlayerOne]
  simp

/-- field_mark_self_PlayerTwo is the read-after-write law for a player-two
write, valid when the cell does not already hold a player-one stone. -/
theorem field_mark_self_PlayerTwo (b : Bitboard) (i : CellIndex)
    (h : Bitboard.field b i ≠ Cell.PlayerOne) :
    Bitboard.field (Bitboard.mark_cell b i Cell.PlayerTwo) i = Cell.PlayerTwo := by
  have hbit : b.testBit (cellBit i) = false := by
    rcases hb : b.testBit (cellBit i) with _ | _
    · rfl
    · exact absurd ((field_eq_playerOne_iff b i).mpr hb) h
  rw [field_spec, testBit_mark_PlayerTwo, testBit_mark_PlayerTwo, hbit]
  have hne : ¬(cellBit i + 16 = cellBit i) := by omega
  simp [hne]

/-- field_mark_self_Empty is the read-after-write law for a clear. -/
theorem field_mark_self_Empty (b : Bitboard) (i : CellIndex) (hi : i < 9) :
    Bitboard.field (Bitboard.mark_cell b i Cell.Empty) i = Cell.Empty := by
  have hlt := cellBit_lt i hi
  rw [field_spec, testBit_mark_Empty _ _ _ (by omega), testBit_mark_Empty _ _ _ (by omega)]
  simp

/-- field_mark_other states that writing one cell leaves every other cell's
read unchanged. -/
theorem field_mark_other (b : Bitboard) (i d : CellIndex) (v : Cell)
    (hi : i < 9) (hd : d < 9) (hne : i ≠ d) :
    Bitboard.field (Bitboard.mark_cell b i v) d = Bitboard.field b d := by
  have hlti := cellBit_lt i hi
  have hltd := cellBit_lt d hd
  have h1 : cellBit i ≠ cellBit d := fun h => hne (cellBit_inj i hi d hd h)
  have h2 : cellBit i ≠ cellBit d + 16 := by omega
  have h3 : cellBit i + 16 ≠ cellBit d := by omega
  have h4 : cellBit i + 16 ≠ cellBit d + 16 := by omega
  cases v with
  | Empty =>
    rw [field_spec, field_spec, testBit_mark_Empty _ _ _ (by omega),
      testBit_mark_Empty _ _ _ (by omega)]
    simp [h1, h2, h3, h4]
  | PlayerOne =>
    rw [field_spec, field_spec, testBit_mark_PlayerOne, testBit_mark_PlayerOne]
    simp [h1, h2]
  | PlayerTwo =>
    rw [field_spec, field_spec, testBit_mark_PlayerTwo, testBit_mark_PlayerTwo]
    simp [h3, h4]

/-- popcountAux_zero evaluates the population count of zero under any fuel. -/
theorem popcountAux_zero (f : Nat) : Bitboard.popcountAux f 0 = 0 := by
  cases f <;> simp [Bitboard.popcountAux]

/-- popcountAux_congr shows the fuel is irrelevant once it covers the input. -/
theorem popcountAux_congr :
    ∀ f1 f2 n : Nat, n ≤ f1 → n ≤ f2 → Bitboard.popcountAux f1 n = Bitboard.popcountAux f2 n := by
  intro f1
  induction f1 with
  | zero =>
    intro f2 n h1 h2
    have hn : n = 0 := Nat.le_zero.mp h1
    subst hn
    rw [popcountAux_zero, popcountAux_zero]
  | succ f ih =>
    intro f2 n h1 h2
    by_cases hn : n = 0
    · subst hn
      rw [popcountAux_zero, popcountAux_zero]
    · cases f2 with
      | zero => omega
      | succ f2b =>
        simp only [Bitboard.popcountAux, if_neg hn]
        have hdiv : n / 2 < n := Nat.div_lt_self (Nat.pos_of_ne_zero hn) (by omega)
        rw [ih f2b (n / 2) (by omega) (by omega)]

/-- popcount_eq is the defining recurrence of the population count. -/
theorem popcount_eq (n : Nat) : Bitboard.popcount n = n % 2 + Bitboard.popcount (n / 2) := by
  by_cases hn : n = 0
  · subst hn
    simp [Bitboard.popcount, popcountAux_zero]
  · obtain ⟨m, rfl⟩ : ∃ m, n = m + 1 := ⟨n - 1, by omega⟩
    show Bitboard.popcountAux (m + 1) (m + 1) = _
    simp only [Bitboard.popcountAux, if_neg hn]
    have := popcountAux_congr m ((m + 1) / 2) ((m + 1) / 2) (by omega) (by omega)
    rw [this]
    rfl

/-- popcount_lor_two_pow states that setting one clear bit raises the stone
count by exactly one. -/
theorem popcount_lor_two_pow :
    ∀ (k w : Nat), w.testBit k = false → Bitboard.popcount (w ||| 2 ^ k) = Bitboard.popcount w + 1 := by
  intro k
  induction k with
  | zero =>
    intro w h
    have hw : w % 2 = 0 := by
      rcases Nat.mod_two_eq_zero_or_one w with h0 | h1
      · exact h0
      · rw [Nat.testBit_zero] at h
        exact absurd h1 (of_decide_eq_false h)
    rw [pow_zero, popcount_eq (w ||| 1), popcount_eq w]
    have h2 : (w ||| 1) % 2 = 1 := by simp [Nat.or_mod_two_eq_one]
    have h3 : (w ||| 1) / 2 = w / 2 := by rw [Nat.or_div_two]; norm_num
    rw [h2, h3, hw]
    omega
  | succ k ih =>
    intro w h
    have hsucc : (2 : Nat) ^ (k + 1) = 2 * 2 ^ k := by ring
    have hb : (2 : Nat) ^ (k + 1) % 2 = 0 := by rw [hsucc]; omega
    rw [popcount_eq (w ||| 2 ^ (k + 1)), popcount_eq w]
    have hmod : (w ||| 2 ^ (k + 1)) % 2 = w % 2 := by
      rcases Nat.mod_two_eq_zero_or_one (w ||| 2 ^ (k + 1)) with hx | hx <;>
        rcases Nat.mod_two_eq_zero_or_one w with hy | hy
      · omega
      · have hy2 : (w ||| 2 ^ (k + 1)) % 2 = 1 := Nat.or_mod_two_eq_one.mpr (Or.inl hy)
        omega
      · rcases Nat.or_mod_two_eq_one.mp hx with hz | hz <;> omega
      · omega
    have hdiv : (w ||| 2 ^ (k + 1)) / 2 = w / 2 ||| 2 ^ k := by
      rw [Nat.or_div_two, hsucc, Nat.mul_div_cancel_left _ (by norm_num)]
    have hbit : (w / 2).testBit k = false := by
      rw [Nat.testBit_div_two]
      exact h
    rw [hmod, hdiv, ih _ hbit]
    omega

/-- play_move_eq_some characterizes a successful move: the target cell was
empty, and the stone placed belongs to the player whose turn it was. -/
theorem play_move_eq_some {g g2 : TicTacToe} {c : CellIndex}
    (h : TicTacToe.play_move g c = some g2) :
    Bitboard.field g c = Cell.Empty ∧
      ((TicTacToe.state g = TicTacToeState.TurnPlayerOne ∧
          g2 = Bitboard.mark_cell g c Cell.PlayerOne) ∨
       (TicTacToe.state g = TicTacToeState.TurnPlayerTwo ∧
          g2 = Bitboard.mark_cell g c Cell.PlayerTwo)) := by
  unfold TicTacToe.play_move at h
  by_cases hf : Bitboard.field g c = Cell.Empty
  · rw [if_pos hf] at h
    refine ⟨hf, ?_⟩
    cases hst : TicTacToe.state g <;> rw [hst] at h <;> simp_all
  · rw [if_neg hf] at h
    exact absurd h (by simp)

/-- stones_play_move states that every successful move adds exactly one stone. -/
theorem stones_play_move {g g2 : TicTacToe} {c : CellIndex}
    (h : TicTacToe.play_move g c = some g2) :
    Bitboard.stones g2 = Bitboard.stones g + 1 := by
  obtain ⟨hf, hcase⟩ := play_move_eq_some h
  rw [field_eq_empty_iff] at hf
  obtain ⟨h1, h2⟩ := hf
  rcases hcase with ⟨_, rfl⟩ | ⟨_, rfl⟩
  · rw [mark_cell_PlayerOne]
    exact popcount_lor_two_pow _ _ h1
  · rw [mark_cell_PlayerTwo]
    exact popcount_lor_two_pow _ _ h2

/-- mem_legal_moves characterizes the enumerated moves: exactly the in-range
positions whose cell is empty. -/
theorem mem_legal_moves (g : TicTacToe) (d : CellIndex) :
    d ∈ TicTacToe.legal_moves g ↔ d < 9 ∧ Bitboard.field g d = Cell.Empty := by
  simp [TicTacToe.legal_moves, List.mem_filter, List.mem_range]

/-- legal_moves_sorted states the enumerated moves are strictly ascending. -/
theorem legal_moves_sorted (g : TicTacToe) :
    (TicTacToe.legal_moves g).Pairwise (· < ·) :=
  List.Pairwise.filter _ (List.pairwise_lt_range 9)

/-- length_filter_update relates the filtered lengths of one list under two
predicates that differ only at one chosen element. -/
theorem length_filter_update {p q : Nat → Bool} :
    ∀ (l : List Nat) (c : Nat), c ∈ l → l.Nodup → p c = true → q c = false →
      (∀ d ∈ l, d ≠ c → q d = p d) → (l.filter q).length + 1 = (l.filter p).length := by
  intro l
  induction l with
  | nil => intro c hc; simp at hc
  | cons a t ih =>
    intro c hc hnd hp hq hother
    have hnda := List.nodup_cons.mp hnd
    rcases List.mem_cons.mp hc with rfl | hct
    · have ht : ∀ d ∈ t, q d = p d := by
        intro d hd
        refine hother d (List.mem_cons_of_mem _ hd) ?_
        intro hdc
        exact hnda.1 (hdc ▸ hd)
      rw [List.filter_cons_of_neg (by simp [hq]), List.filter_cons_of_pos hp,
        List.filter_congr ht]
      simp
    · have hane : a ≠ c := fun h => hnda.1 (h ▸ hct)
      have hqa : q a = p a := hother a (List.mem_cons_self a t) hane
      have hrec := ih c hct hnda.2 hp hq (fun d hd hdc => hother d (List.mem_cons_of_mem _ hd) hdc)
      cases hpa : p a with
      | true =>
        rw [List.filter_cons_of_pos hpa, List.filter_cons_of_pos (hqa.trans hpa)]
        simp only [List.length_cons]
        omega
      | false =>
        have hfq : List.filter q (a :: t) = List.filter q t :=
          List.filter_cons_of_neg (by rw [hqa, hpa]; simp)
        have hfp : List.filter p (a :: t) = List.filter p t :=
          List.filter_cons_of_neg (by rw [hpa]; simp)
        rw [hfq, hfp]
        exact hrec

/-- legal_moves_play_move states that a successful move removes exactly one
entry from the legal move list. -/
theorem legal_moves_play_move {g g2 : TicTacToe} {c : CellIndex} (hc : c < 9)
    (h : TicTacToe.play_move g c = some g2) :
    (TicTacToe.legal_moves g2).length + 1 = (TicTacToe.legal_moves g).length := by
  obtain ⟨hf, hcase⟩ := play_move_eq_some h
  have hg2ne : Bitboard.field g2 c ≠ Cell.Empty := by
    rcases hcase with ⟨_, rfl⟩ | ⟨_, rfl⟩
    · rw [field_mark_self_PlayerOne]
      simp
    · rw [field_mark_self_PlayerTwo g c (by rw [hf]; simp)]
      simp
  have hgother : ∀ d, d < 9 → d ≠ c → Bitboard.field g2 d = Bitboard.field g d := by
    intro d hd hdc
    rcases hcase with ⟨_, rfl⟩ | ⟨_, rfl⟩ <;>
      exact field_mark_other g c d _ hc hd (fun h2 => hdc h2.symm)
  refine length_filter_update (List.range 9) c (List.mem_range.mpr hc) (List.nodup_range 9)
    (by simp [hf]) (by simp [hg2ne]) ?_
  intro d hd hdc
  rw [hgother d (List.mem_range.mp hd) hdc]

/-- stones_add_length_legal is the central reachability invariant: the stone
count plus the number of legal moves is always nine. -/
theorem stones_add_length_legal (g : TicTacToe) (h : Reachable g) :
    Bitboard.stones g + (TicTacToe.legal_moves g).length = 9 := by
  induction h with
  | base => decide
  | step hr hc hp ih =>
    rw [stones_play_move hp]
    have := legal_moves_play_move hc hp
    omega

/-- validWord_new states the empty board is valid. -/
theorem validWord_new : ValidWord Bitboard.new := by
  intro j hj
  simp [Bitboard.new] at hj

/-- validWord_mark_cell states that a write at a valid index preserves the
padding-bit invariant. -/
theorem validWord_mark_cell (w : Bitboard) (i : CellIndex) (v : Cell) (hi : i < 9)
    (hw : ValidWord w) : ValidWord (Bitboard.mark_cell w i v) := by
  intro j hj
  cases v with
  | Empty =>
    rw [mark_cell_Empty, Nat.testBit_and, Bool.and_eq_true] at hj
    exact hw j hj.1
  | PlayerOne =>
    rw [testBit_mark_PlayerOne, Bool.or_eq_true] at hj
    rcases hj with hj | hj
    · exact hw j hj
    · exact (of_decide_eq_true hj) ▸ validMask_cellBit i hi
  | PlayerTwo =>
    rw [testBit_mark_PlayerTwo, Bool.or_eq_true] at hj
    rcases hj with hj | hj
    · exact hw j hj
    · exact (of_decide_eq_true hj) ▸ validMask_cellBit16 i hi

/-- validWord_applyMarks extends padding preservation to mark sequences. -/
theorem validWord_applyMarks :
    ∀ (ms : List (CellIndex × Cell)) (w : Bitboard), (∀ p ∈ ms, p.1 < 9) → ValidWord w →
      ValidWord (applyMarks ms w) := by
  intro ms
  induction ms with
  | nil => intro w _ hw; exact hw
  | cons m t ih =>
    intro w hms hw
    show ValidWord (applyMarks t (Bitboard.mark_cell w m.1 m.2))
    exact ih _ (fun p hp => hms p (List.mem_cons_of_mem _ hp))
      (validWord_mark_cell w m.1 m.2 (hms m (List.mem_cons_self m t)) hw)

/-- victory_eq_vWord folds the constant shift arithmetic of the source. -/
theorem victory_eq_vWord (b : Bitboard) : Bitboard.victory b = (vWord b != 0) := rfl

/-- testBit_vWord computes one bit of the combined victory word. -/
theorem testBit_vWord (b : Bitboard) (j : Nat) :
    (vWord b).testBit j =
      ((b.testBit j && b.testBit (1 + j) && b.testBit (2 + j)) ||
       (b.testBit j && b.testBit (4 + j) && b.testBit (8 + j)) ||
       (b.testBit j && b.testBit (5 + j) && b.testBit (10 + j)) ||
       (b.testBit j && b.testBit (3 + j) && b.testBit (6 + j))) := by
  simp [vWord, Nat.testBit_or, Nat.testBit_and, Nat.testBit_shiftRight]

/-- ne_zero_of_testBit gives nonzeroness from one set bit. -/
theorem ne_zero_of_testBit {x : Nat} (j : Nat) (h : x.testBit j = true) : x ≠ 0 := by
  intro h0
  subst h0
  simp at h

/-- validMask_bit_lt bounds the set bits of the valid mask. -/
theorem validMask_bit_lt (j : Nat) (h : validMask.testBit j = true) : j < 27 := by
  by_contra hj
  push_neg at hj
  have hlt : validMask < 2 ^ j :=
    lt_of_lt_of_le (by norm_num [validMask]) (Nat.pow_le_pow_right (by norm_num) hj)
  rw [Nat.testBit_lt_two_pow hlt] at h
  exact absurd h (by simp)

/-- maskStarts1 enumerates where a horizontal shift triple can live inside
the valid mask. -/
theorem maskStarts1 :
    ∀ j, j < 27 →
      (validMask.testBit j && validMask.testBit (1 + j) && validMask.testBit (2 + j)) = true →
      j = 0 ∨ j = 4 ∨ j = 8 ∨ j = 16 ∨ j = 20 ∨ j = 24 := by decide

/-- maskStarts4 enumerates where a vertical shift triple can live inside
the valid mask. -/
theorem maskStarts4 :
    ∀ j, j < 27 →
      (validMask.testBit j && validMask.testBit (4 + j) && validMask.testBit (8 + j)) = true →
      j = 0 ∨ j = 1 ∨ j = 2 ∨ j = 16 ∨ j = 17 ∨ j = 18 := by decide

/-- maskStarts5 enumerates where a main-diagonal shift triple can live inside
the valid mask. -/
theorem maskStarts5 :
    ∀ j, j < 27 →
      (validMask.testBit j && validMask.testBit (5 + j) && validMask.testBit (10 + j)) = true →
      j = 0 ∨ j = 16 := by decide

/-- maskStarts3 enumerates where an anti-diagonal shift triple can live inside
the valid mask. -/
theorem maskStarts3 :
    ∀ j, j < 27 →
      (validMask.testBit j && validMask.testBit (3 + j) && validMask.testBit (6 + j)) = true →
      j = 2 ∨ j = 18 := by decide

/-- victory_eq_hasLine is the refinement behind the shift-based win test: on
any word whose set bits lie at valid cell positions, the source's combined
four-direction shift test agrees with checking each player's occupancy
bitmap independently for one of the eight complete lines and OR-ing. -/
theorem victory_eq_hasLine (b : Bitboard) (hb : b &&& validMask = b) :
    Bitboard.victory b = (playerOneHasLine b || playerTwoHasLine b) := by
  have hv : ∀ j, b.testBit j = true → validMask.testBit j = true := by
    intro j hj
    have hcong := congrArg (fun x => Nat.testBit x j) hb
    simp only [Nat.testBit_and] at hcong
    rw [hj, Bool.true_and] at hcong
    exact hcong
  have fwd : Bitboard.victory b = true → (playerOneHasLine b || playerTwoHasLine b) = true := by
    intro hvic
    rw [victory_eq_vWord] at hvic
    have hne : vWord b ≠ 0 := by
      intro h0
      rw [h0] at hvic
      simp at hvic
    obtain ⟨j, hj⟩ := Nat.ne_zero_implies_bit_true hne
    rw [testBit_vWord] at hj
    simp only [Bool.or_eq_true, Bool.and_eq_true] at hj
    rcases hj with ((⟨⟨h1, h2⟩, h3⟩ | ⟨⟨h1, h2⟩, h3⟩) | ⟨⟨h1, h2⟩, h3⟩) | ⟨⟨h1, h2⟩, h3⟩
    · have hm := maskStarts1 j (validMask_bit_lt j (hv j h1))
        (by simp [hv j h1, hv _ h2, hv _ h3])
      rcases hm with rfl | rfl | rfl | rfl | rfl | rfl <;>
        simp only [Nat.reduceAdd] at h2 h3 <;>
        simp [playerOneHasLine, playerTwoHasLine, lines, cellBit,
          CellIndex.row, CellIndex.column, h1, h2, h3]
    · have hm := maskStarts4 j (validMask_bit_lt j (hv j h1))
        (by simp [hv j h1, hv _ h2, hv _ h3])
      rcases hm with rfl | rfl | rfl | rfl | rfl | rfl <;>
        simp only [Nat.reduceAdd] at h2 h3 <;>
        simp [playerOneHasLine, playerTwoHasLine, lines, cellBit,
          CellIndex.row, CellIndex.column, h1, h2, h3]
    · have hm := maskStarts5 j (validMask_bit_lt j (hv j h1))
        (by simp [hv j h1, hv _ h2, hv _ h3])
      rcases hm with rfl | rfl <;>
        simp only [Nat.reduceAdd] at h2 h3 <;>
        simp [playerOneHasLine, playerTwoHasLine, lines, cellBit,
          CellIndex.row, CellIndex.column, h1, h2, h3]
    · have hm := maskStarts3 j (validMask_bit_lt j (hv j h1))
        (by simp [hv j h1, hv _ h2, hv _ h3])
      rcases hm with rfl | rfl <;>
        simp only [Nat.reduceAdd] at h2 h3 <;>
        simp [playerOneHasLine, playerTwoHasLine, lines, cellBit,
          CellIndex.row, CellIndex.column, h1, h2, h3]
  have bwd : (playerOneHasLine b || playerTwoHasLine b) = true → Bitboard.victory b = true := by
    intro hline
    rw [victory_eq_vWord]
    rw [Bool.or_eq_true] at hline
    rcases hline with hl | hl
    · simp only [playerOneHasLine, lines, cellBit, CellIndex.row, CellIndex.column,
        List.any_cons, List.any_nil, List.all_cons, List.all_nil, Nat.reduceDiv, Nat.reduceMod,
        Nat.reduceMul, Nat.reduceAdd, Bool.or_false, Bool.and_true, Bool.or_eq_true,
        Bool.and_eq_true] at hl
      rcases hl with ⟨h1, h2, h3⟩ | ⟨h1, h2, h3⟩ | ⟨h1, h2, h3⟩ | ⟨h1, h2, h3⟩ |
        ⟨h1, h2, h3⟩ | ⟨h1, h2, h3⟩ | ⟨h1, h2, h3⟩ | ⟨h1, h2, h3⟩
      · simpa using ne_zero_of_testBit 0 (by rw [testBit_vWord]; simp [h1, h2, h3])
      · simpa using ne_zero_of_testBit 4 (by rw [testBit_vWord]; simp [h1, h2, h3])
      · simpa using ne_zero_of_testBit 8 (by rw [testBit_vWord]; simp [h1, h2, h3])
      · simpa using ne_zero_of_testBit 0 (by rw [testBit_vWord]; simp [h1, h2, h3])
      · simpa using ne_zero_of_testBit 1 (by rw [testBit_vWord]; simp [h1, h2, h3])
      · simpa using ne_zero_of_testBit 2 (by rw [testBit_vWord]; simp [h1, h2, h3])
      · simpa using ne_zero_of_testBit 0 (by rw [testBit_vWord]; simp [h1, h2, h3])
      · simpa using ne_zero_of_testBit 2 (by rw [testBit_vWord]; simp [h1, h2, h3])
    · simp only [playerTwoHasLine, lines, cellBit, CellIndex.row, CellIndex.column,
        List.any_cons, List.any_nil, List.all_cons, List.all_nil, Nat.reduceDiv, Nat.reduceMod,
        Nat.reduceMul, Nat.reduceAdd, Bool.or_false, Bool.and_true, Bool.or_eq_true,
        Bool.and_eq_true] at hl
      rcases hl with ⟨h1, h2, h3⟩ | ⟨h1, h2, h3⟩ | ⟨h1, h2, h3⟩ | ⟨h1, h2, h3⟩ |
        ⟨h1, h2, h3⟩ | ⟨h1, h2, h3⟩ | ⟨h1, h2, h3⟩ | ⟨h1, h2, h3⟩
      · simpa using ne_zero_of_testBit 16 (by rw [testBit_vWord]; simp [h1, h2, h3])
      · simpa using ne_zero_of_testBit 20 (by rw [testBit_vWord]; simp [h1, h2, h3])
      · simpa using ne_zero_of_testBit 24 (by rw [testBit_vWord]; simp [h1, h2, h3])
      · simpa using ne_zero_of_testBit 16 (by rw [testBit_vWord]; simp [h1, h2, h3])
      · simpa using ne_zero_of_testBit 17 (by rw [testBit_vWord]; simp [h1, h2, h3])
      · simpa using ne_zero_of_testBit 18 (by rw [testBit_vWord]; simp [h1, h2, h3])
      · simpa using ne_zero_of_testBit 16 (by rw [testBit_vWord]; simp [h1, h2, h3])
      · simpa using ne_zero_of_testBit 18 (by rw [testBit_vWord]; simp [h1, h2, h3])
  rw [Bool.eq_iff_iff]
  exact ⟨fwd, bwd⟩

/-- state_spec characterizes the turn and draw classification of `state` for
every board: player one's turn iff no win and even count, player two's turn
iff no win, odd count and a non-full board, and a full board without a win
classifies as a draw. -/
theorem state_spec (g : TicTacToe) :
    (TicTacToe.state g = TicTacToeState.TurnPlayerOne ↔
       Bitboard.victory g = false ∧ Bitboard.stones g % 2 = 0) ∧
    (TicTacToe.state g = TicTacToeState.TurnPlayerTwo ↔
       Bitboard.victory g = false ∧ Bitboard.stones g % 2 = 1 ∧ Bitboard.stones g ≠ 9) ∧
    (Bitboard.victory g = false ∧ Bitboard.stones g = 9 →
       TicTacToe.state g = TicTacToeState.Draw) := by
  rcases hV : Bitboard.victory g with _ | _ <;>
    rcases Nat.mod_two_eq_zero_or_one (Bitboard.stones g) with h2 | h2 <;>
    by_cases h9 : Bitboard.stones g = 9 <;>
    simp [TicTacToe.state, hV, h2, h9]

/-- stones_playMoves accumulates the one-stone-per-move law over a sequence. -/
theorem stones_playMoves :
    ∀ (ms : List CellIndex) (g g2 : TicTacToe), playMoves ms g = some g2 →
      Bitboard.stones g2 = Bitboard.stones g + ms.length := by
  intro ms
  induction ms with
  | nil =>
    intro g g2 h
    simp only [playMoves, Option.some.injEq] at h
    subst h
    simp
  | cons m t ih =>
    intro g g2 h
    simp only [playMoves] at h
    rcases hm : TicTacToe.play_move g m with _ | g3
    · rw [hm] at h
      exact absurd h (by simp)
    · rw [hm] at h
      rw [ih g3 g2 h, stones_play_move hm]
      simp only [List.length_cons]
      omega


/-- C1: the claim says a win is attributed to the player who just moved
(odd stone count means VictoryPlayerOne, even means VictoryPlayerTwo, and the
scenario 4,6,2,8,5,7 ends in VictoryPlayerTwo).  The code does the opposite:
after that legal scenario the bottom row cells 6,7,8 all hold player two's
stones and the stone count is even, yet `state()` reports VictoryPlayerOne.
This theorem evaluates the code on the failing input. -/
theorem claim_C1_state_misattributes_victory :
    playMoves [4, 6, 2, 8, 5, 7] TicTacToe.new = some victoryBoard ∧
    Bitboard.field victoryBoard 6 = Cell.PlayerTwo ∧
    Bitboard.field victoryBoard 7 = Cell.PlayerTwo ∧
    Bitboard.field victoryBoard 8 = Cell.PlayerTwo ∧
    Bitboard.stones victoryBoard = 6 ∧
    Bitboard.victory victoryBoard = true ∧
    TicTacToe.state victoryBoard = TicTacToeState.VictoryPlayerOne := by
  refine ⟨by decide, by decide, by decide, by decide, by decide, by decide, by decide⟩

/-- C2: on every board word whose set bits lie only at valid cell positions,
the source's four shift-and-AND checks on the combined two-player word return
true exactly when some player's occupancy bitmap contains a complete row,
column or diagonal, i.e. the combined test equals the OR of the two
per-player line tests. -/
theorem claim_C2_victory_iff_line (b : Bitboard) (hb : b &&& validMask = b) :
    Bitboard.victory b = (playerOneHasLine b || playerTwoHasLine b) :=
  victory_eq_hasLine b hb

/-- claim_C2_witness instantiates C2 on the board with player-one stones at
cells 0, 4 and 8: the main diagonal is complete and victory holds. -/
theorem claim_C2_witness :
    diagBoard &&& validMask = diagBoard ∧
    Bitboard.victory diagBoard = (playerOneHasLine diagBoard || playerTwoHasLine diagBoard) ∧
    Bitboard.victory diagBoard = true :=
  ⟨by decide, claim_C2_victory_iff_line diagBoard (by decide), by decide⟩

/-- C3 counterexample: the claim asserts the mark/read round trip for every
board, position and value, but marking PlayerTwo on a cell that already
holds a PlayerOne stone reads back PlayerOne, not PlayerTwo. -/
theorem claim_C3_counterexample :
    Bitboard.field
        (Bitboard.mark_cell (Bitboard.mark_cell Bitboard.new 0 Cell.PlayerOne) 0 Cell.PlayerTwo)
        0 ≠ Cell.PlayerTwo ∧
    Bitboard.field
        (Bitboard.mark_cell (Bitboard.mark_cell Bitboard.new 0 Cell.PlayerOne) 0 Cell.PlayerTwo)
        0 = Cell.PlayerOne := by
  refine ⟨by decide, by decide⟩

/-- C3 (amended): for every board and position in range, reading immediately
after `mark_cell` returns the written value for Empty and PlayerOne
unconditionally, and for PlayerTwo provided the cell does not already hold a
PlayerOne stone. -/
theorem claim_C3_roundtrip (b : Bitboard) (i : CellIndex) (hi : i < 9) :
    Bitboard.field (Bitboard.mark_cell b i Cell.PlayerOne) i = Cell.PlayerOne ∧
    Bitboard.field (Bitboard.mark_cell b i Cell.Empty) i = Cell.Empty ∧
    (Bitboard.field b i ≠ Cell.PlayerOne →
      Bitboard.field (Bitboard.mark_cell b i Cell.PlayerTwo) i = Cell.PlayerTwo) :=
  ⟨field_mark_self_PlayerOne b i, field_mark_self_Empty b i hi,
    fun h => field_mark_self_PlayerTwo b i h⟩

/-- claim_C3_witness instantiates the round trip at cell 4 of the empty board. -/
theorem claim_C3_witness :
    Bitboard.field (Bitboard.mark_cell Bitboard.new 4 Cell.PlayerTwo) 4 = Cell.PlayerTwo :=
  (claim_C3_roundtrip Bitboard.new 4 (by decide)).2.2 (by decide)

/-- C4 counterexample: the claim asserts parsing succeeds exactly on the nine
one-character strings and every multi-character string errors; but the code
only inspects the first byte, so the two-character string of two zero digits
parses successfully to cell 0. -/
theorem claim_C4_counterexample :
    CellIndex.from_str "00" = Except.ok 0 ∧
    ∀ e, CellIndex.from_str "00" ≠ Except.error e := by
  refine ⟨rfl, fun e h => ?_⟩
  rw [show CellIndex.from_str "00" = Except.ok 0 from rfl] at h
  exact absurd h (by simp)

/-- C4 (amended): parsing succeeds exactly on strings whose first character
is an ASCII digit between 0 and 8, producing that digit's value, and fails
with the descriptive error message on every other input (including the empty
string and inputs starting with an out-of-range or non-digit character). -/
theorem claim_C4_parse (s : String) :
    (∀ c rest, s.data = c :: rest → ('0' : Char) ≤ c → c ≤ ('8' : Char) →
       CellIndex.from_str s = Except.ok (c.toNat - ('0' : Char).toNat)) ∧
    ((∀ c rest, s.data = c :: rest → ¬(('0' : Char) ≤ c ∧ c ≤ ('8' : Char))) →
       CellIndex.from_str s = Except.error "Only digits from 0 to 8 count as valid moves.") := by
  constructor
  · intro c rest hdata h0 h8
    unfold CellIndex.from_str
    rw [hdata]
    simp [h0, h8]
  · intro hall
    unfold CellIndex.from_str
    rcases hdata : s.data with _ | ⟨c, rest⟩
    · rfl
    · have := hall c rest hdata
      simp [this]

/-- claim_C4_witness instantiates the parser characterization: the digit
string for five parses to cell 5 and the letter input fails. -/
theorem claim_C4_witness :
    CellIndex.from_str "5" = Except.ok 5 ∧
    CellIndex.from_str "a" = Except.error "Only digits from 0 to 8 count as valid moves." := by
  constructor
  · have h := (claim_C4_parse "5").1 (Char.ofNat 53) [] (by decide) (by decide) (by decide)
    simpa using h
  · refine (claim_C4_parse "a").2 ?_
    intro c rest hdata
    rw [show ("a" : String).data = [Char.ofNat 97] from rfl] at hdata
    injection hdata with h1 h2
    subst h1
    decide

/-- C5 counterexample: the claim makes `state() = TurnPlayerTwo` equivalent
to an odd stone count with no complete line, for every reachable game; but
the legally reachable full drawn board has nine stones (odd) and no line,
and its state is Draw, not TurnPlayerTwo. -/
theorem claim_C5_counterexample :
    playMoves [0, 2, 1, 3, 5, 4, 6, 7, 8] TicTacToe.new = some drawBoard ∧
    Bitboard.victory drawBoard = false ∧
    Bitboard.stones drawBoard % 2 = 1 ∧
    TicTacToe.state drawBoard = TicTacToeState.Draw ∧
    TicTacToe.state drawBoard ≠ TicTacToeState.TurnPlayerTwo := by
  refine ⟨by decide, by decide, by decide, by decide, by decide⟩

/-- C5 (amended): for every game, `state()` is TurnPlayerOne iff the stone
count is even and no line is complete; it is TurnPlayerTwo iff the count is
odd, no line is complete and the board is not full (count below nine); and a
full board with no complete line is classified Draw. -/
theorem claim_C5_state_turns (g : TicTacToe) :
    (TicTacToe.state g = TicTacToeState.TurnPlayerOne ↔
       Bitboard.victory g = false ∧ Bitboard.stones g % 2 = 0) ∧
    (TicTacToe.state g = TicTacToeState.TurnPlayerTwo ↔
       Bitboard.victory g = false ∧ Bitboard.stones g % 2 = 1 ∧ Bitboard.stones g ≠ 9) ∧
    (Bitboard.victory g = false ∧ Bitboard.stones g = 9 →
       TicTacToe.state g = TicTacToeState.Draw) :=
  state_spec g

/-- claim_C5_witness instantiates the characterization: the fresh game is
player one's turn, and the drawn board is classified Draw. -/
theorem claim_C5_witness :
    TicTacToe.state TicTacToe.new = TicTacToeState.TurnPlayerOne ∧
    TicTacToe.state drawBoard = TicTacToeState.Draw :=
  ⟨(claim_C5_state_turns TicTacToe.new).1.mpr (by refine ⟨by decide, by decide⟩),
   (claim_C5_state_turns drawBoard).2.2 (by refine ⟨by decide, by decide⟩)⟩

/-- C6: `play_move` on an occupied cell or on a finished game (a state of
VictoryPlayerOne, VictoryPlayerTwo or Draw) aborts — modelled as `none` —
and in particular never mutates the board, so no transition leaves a
terminal state. -/
theorem claim_C6_rejects_illegal (g : TicTacToe) (c : CellIndex) :
    (Bitboard.field g c ≠ Cell.Empty → TicTacToe.play_move g c = none) ∧
    ((TicTacToe.state g = TicTacToeState.VictoryPlayerOne ∨
      TicTacToe.state g = TicTacToeState.VictoryPlayerTwo ∨
      TicTacToe.state g = TicTacToeState.Draw) → TicTacToe.play_move g c = none) := by
  constructor
  · intro h
    unfold TicTacToe.play_move
    rw [if_neg h]
  · intro h
    unfold TicTacToe.play_move
    by_cases hf : Bitboard.field g c = Cell.Empty
    · rw [if_pos hf]
      rcases h with h | h | h <;> rw [h]
    · rw [if_neg hf]

/-- claim_C6_witness instantiates the rejection law: replaying the occupied
centre cell fails, and any move on the finished scenario board fails. -/
theorem claim_C6_witness :
    TicTacToe.play_move oneMoveBoard 4 = none ∧
    TicTacToe.play_move victoryBoard 0 = none :=
  ⟨(claim_C6_rejects_illegal oneMoveBoard 4).1 (by decide),
   (claim_C6_rejects_illegal victoryBoard 0).2 (Or.inl (by decide))⟩

/-- C7: for every reachable game, `legal_moves()` enumerates exactly the
in-range positions whose cell is empty, in strictly ascending order, and its
length is nine minus the stone count.  (Freshness of each enumeration is
automatic here: the model recomputes the list from the current board.) -/
theorem claim_C7_legal_moves (g : TicTacToe) (hg : Reachable g) :
    (∀ d, d ∈ TicTacToe.legal_moves g ↔ (d < 9 ∧ Bitboard.field g d = Cell.Empty)) ∧
    (TicTacToe.legal_moves g).Pairwise (· < ·) ∧
    (TicTacToe.legal_moves g).length = 9 - Bitboard.stones g := by
  refine ⟨fun d => mem_legal_moves g d, legal_moves_sorted g, ?_⟩
  have h := stones_add_length_legal g hg
  omega

/-- claim_C7_witness instantiates the enumeration law on the board after one
move at the centre: eight moves remain and the centre is excluded. -/
theorem claim_C7_witness :
    (TicTacToe.legal_moves oneMoveBoard).length = 9 - Bitboard.stones oneMoveBoard ∧
    (4 ∈ TicTacToe.legal_moves oneMoveBoard ↔
      (4 < 9 ∧ Bitboard.field oneMoveBoard 4 = Cell.Empty)) :=
  ⟨(claim_C7_legal_moves oneMoveBoard
      (@Reachable.step TicTacToe.new oneMoveBoard 4 Reachable.base (by decide) (by decide))).2.2,
   (claim_C7_legal_moves oneMoveBoard
      (@Reachable.step TicTacToe.new oneMoveBoard 4 Reachable.base (by decide) (by decide))).1 4⟩

/-- C8: applying any list of successful moves to the fresh game leaves a
stone count equal to the list length; equivalently each successful
`play_move` adds exactly one stone. -/
theorem claim_C8_stone_count :
    (∀ (ms : List CellIndex) (g2 : TicTacToe), playMoves ms TicTacToe.new = some g2 →
       Bitboard.stones g2 = ms.length) ∧
    (∀ (g g2 : TicTacToe) (c : CellIndex), TicTacToe.play_move g c = some g2 →
       Bitboard.stones g2 = Bitboard.stones g + 1) := by
  constructor
  · intro ms g2 h
    have hacc := stones_playMoves ms TicTacToe.new g2 h
    have h0 : Bitboard.stones TicTacToe.new = 0 := rfl
    omega
  · intro g g2 c h
    exact stones_play_move h

/-- claim_C8_witness instantiates the stone-count law on the six-move
scenario sequence and on one concrete step. -/
theorem claim_C8_witness :
    Bitboard.stones victoryBoard = 6 ∧
    Bitboard.stones oneMoveBoard = Bitboard.stones TicTacToe.new + 1 :=
  ⟨claim_C8_stone_count.1 [4, 6, 2, 8, 5, 7] victoryBoard (by decide),
   claim_C8_stone_count.2 TicTacToe.new oneMoveBoard 4 (by decide)⟩

/-- C9: the display contract: the empty board renders exactly as the
specified seven-line ASCII frame, and in general each of the nine slots of
the fixed frame renders as a blank for Empty, X for PlayerOne and O for
PlayerTwo. -/
theorem claim_C9_display :
    TicTacToe.print_to TicTacToe.new =
      "-------\n| | | |\n|-----|\n| | | |\n|-----|\n| | | |\n-------" ∧
    TicTacToe.cellDisplay Cell.Empty = " " ∧
    TicTacToe.cellDisplay Cell.PlayerOne = "X" ∧
    TicTacToe.cellDisplay Cell.PlayerTwo = "O" ∧
    (∀ g : TicTacToe, TicTacToe.print_to g =
      "-------\n|" ++ TicTacToe.cellDisplay (Bitboard.field g 0) ++ "|" ++
        TicTacToe.cellDisplay (Bitboard.field g 1) ++ "|" ++
        TicTacToe.cellDisplay (Bitboard.field g 2) ++ "|\n|-----|\n|" ++
        TicTacToe.cellDisplay (Bitboard.field g 3) ++ "|" ++
        TicTacToe.cellDisplay (Bitboard.field g 4) ++ "|" ++
        TicTacToe.cellDisplay (Bitboard.field g 5) ++ "|\n|-----|\n|" ++
        TicTacToe.cellDisplay (Bitboard.field g 6) ++ "|" ++
        TicTacToe.cellDisplay (Bitboard.field g 7) ++ "|" ++
        TicTacToe.cellDisplay (Bitboard.field g 8) ++ "|\n-------") :=
  ⟨rfl, rfl, rfl, rfl, fun _ => rfl⟩

/-- C10: starting from the zero word, any sequence of `mark_cell` writes at
valid indices keeps every bit outside the 18 valid cell positions clear; in
particular the padding bits 3, 7, 11 through 15 and their player-two
counterparts 19, 23, 27 through 31 stay zero, which is what stops the shift
tests from crossing row or player boundaries. -/
theorem claim_C10_padding_invariant (ms : List (CellIndex × Cell))
    (hms : ∀ p ∈ ms, p.1 < 9) :
    (∀ j, (applyMarks ms Bitboard.new).testBit j = true → validMask.testBit j = true) ∧
    (∀ j ∈ ([3, 7, 11, 12, 13, 14, 15, 19, 23, 27, 28, 29, 30, 31] : List Nat),
       (applyMarks ms Bitboard.new).testBit j = false) := by
  have hvw := validWord_applyMarks ms Bitboard.new hms validWord_new
  refine ⟨hvw, ?_⟩
  have hmaskfalse :
      ∀ j ∈ ([3, 7, 11, 12, 13, 14, 15, 19, 23, 27, 28, 29, 30, 31] : List Nat),
        validMask.testBit j = false := by decide
  intro j hj
  rcases h : (applyMarks ms Bitboard.new).testBit j with _ | _
  · rfl
  · have htrue := hvw j h
    rw [hmaskfalse j hj] at htrue
    exact absurd htrue (by simp)

/-- claim_C10_witness instantiates the padding invariant on a concrete mark
sequence, checking padding bit 3 stays clear. -/
theorem claim_C10_witness :
    (applyMarks [(0, Cell.PlayerOne), (8, Cell.PlayerTwo), (4, Cell.Empty)]
        Bitboard.new).testBit 3 = false :=
  (claim_C10_padding_invariant [(0, Cell.PlayerOne), (8, Cell.PlayerTwo), (4, Cell.Empty)]
    (by decide)).2 3 (by decide)
